import Mathlib

/-!
# anky: a verification development for `main.go`

The program is a small journaling application.  Typing into a text area keeps a
"life bar" full; every second a ticker (`monitorKeystrokes`) looks at the time
elapsed since the last keystroke, drains the bar, and once the elapsed time has
passed `depletionTime` it saves the text to the next numbered file of the
`writings` directory and shows it read-only.

Conventions of the embedding.

* Go `int`, `int64` and `time.Duration` are 64-bit two's-complement integers:
  they are `Int` here, and every operation that can leave the range goes
  through `wrapInt64`.
* Go strings are `String`; the functions that index into a string work on its
  list of characters.  The only bytes the code inspects (`'.'`, `'/'`, the
  sign and the digits) are ASCII, so the character view and the byte view
  agree on them.
* A `float64` is the fraction `Float64` it is equal to, and every operation
  rounds its exact result to the nearest value with 53 significant bits, ties
  to even, as IEEE 754 prescribes.  The exponent range is not bounded: the
  values the tick step handles lie between `10^-9` and `10^12`.
* The file system is the content of the one directory the program uses, and
  the widgets are the fields of `Session` the code reads or writes.
-/

namespace Anky

/-! ## Machine integers -/

/-- The greatest value of a Go `int` on a 64-bit platform. -/
def maxInt : Int := 9223372036854775807

/-- The least value of a Go `int` on a 64-bit platform. -/
def minInt : Int := -9223372036854775808

/-- Two's-complement wrap-around of an integer result into 64 bits. -/
def wrapInt64 (x : Int) : Int := (x + 9223372036854775808) % 18446744073709551616 - 9223372036854775808

/-! ## `strconv.Atoi`, `filepath.Ext`, `fmt.Sprintf("%d")` -/

/-- The value of a decimal digit byte, `ch - '0'` when that is at most 9. -/
def digitVal (c : Char) : Option Nat :=
  if 48 ≤ c.toNat ∧ c.toNat ≤ 57 then some (c.toNat - 48) else none

/-- The digit loop of `strconv.Atoi`: `n = n*10 + int(ch)`, failing on the first
byte that is not a digit.  The accumulator is unbounded, the range is checked
by `Atoi`. -/
def parseDigits : List Char → Nat → Option Nat
  | [], acc => some acc
  | c :: cs, acc =>
    match digitVal c with
    | none => none
    | some d => parseDigits cs (acc * 10 + d)

/-- The body of `strconv.Atoi` behind the sign: at least one digit, only digits,
and a value that fits a 64-bit `int` (`none` stands for a non-nil `err`). -/
def atoiDigits (neg : Bool) (ds : List Char) : Option Int :=
  match ds with
  | [] => none
  | _ :: _ =>
    match parseDigits ds 0 with
    | none => none
    | some n =>
      let v : Int := if neg then -(n : Int) else (n : Int)
      if minInt ≤ v ∧ v ≤ maxInt then some v else none

/-- The function `strconv.Atoi` of the Go standard library: an optional sign
followed by at least one decimal digit, and nothing else; the value has to fit
a 64-bit `int`, otherwise the call fails. -/
def Atoi (s : String) : Option Int :=
  match s.data with
  | [] => none
  | c :: cs =>
    if c = '-' then atoiDigits true cs
    else if c = '+' then atoiDigits false cs
    else atoiDigits false (c :: cs)

/-- The loop of `filepath.Ext`, run over the reversed path: walk back from the
last byte, stop with the empty extension at a path separator, stop with the
suffix collected so far at a dot. -/
def extScan : List Char → List Char → List Char
  | [], _ => []
  | c :: rest, acc =>
    if c = '/' then []
    else if c = '.' then '.' :: acc
    else extScan rest (c :: acc)

/-- The function `filepath.Ext`: the suffix beginning at the final dot of the
final element of the path, empty if there is none. -/
def Ext (name : String) : String := ⟨extScan name.data.reverse []⟩

/-- The slice `name[:len(name)-len(filepath.Ext(name))]` of `getNextFilename`. -/
def numberStr (name : String) : String :=
  ⟨name.data.take (name.data.length - (Ext name).data.length)⟩

/-- The character of a decimal digit. -/
def digitChar (d : Nat) : Char := Char.ofNat (48 + d)

/-- Decimal digits of a natural number, most significant first; the first
argument bounds the number of digits. -/
def natDigits : Nat → Nat → List Char
  | 0, _ => []
  | fuel + 1, n =>
    if n < 10 then [digitChar n] else natDigits fuel (n / 10) ++ [digitChar (n % 10)]

/-- The verb `%d` of `fmt.Sprintf` on an `int`. -/
def formatInt (n : Int) : String :=
  if n < 0 then ⟨'-' :: natDigits (n.natAbs + 1) n.natAbs⟩
  else ⟨natDigits (n.natAbs + 1) n.natAbs⟩

/-- The function `sort.Ints`: the numbers in increasing order. -/
def sortInts (numbers : List Int) : List Int := numbers.insertionSort (fun a b => a ≤ b)

/-! ## `getNextFilename` -/

/-- The loop of `getNextFilename` over the directory entries: the numbers of the
names that `strconv.Atoi` accepts once the extension is cut off. -/
def collectNumbers : List String → List Int
  | [] => []
  | name :: files =>
    match Atoi (numberStr name) with
    | some number => number :: collectNumbers files
    | none => collectNumbers files

/-- The function `getNextFilename`, given what `os.ReadDir(dir)` returned: `none`
for an error, the names of the entries otherwise.  The sum
`numbers[len(numbers)-1]+1` is an `int` sum and wraps. -/
def getNextFilename (listing : Option (List String)) : String :=
  match listing with
  | none => "1.txt"
  | some files =>
    let numbers := sortInts (collectNumbers files)
    match numbers.getLast? with
    | some last => formatInt (wrapInt64 (last + 1)) ++ ".txt"
    | none => "1.txt"

/-! ## The writings directory -/

/-- An entry of the writings directory: its name, whether it is a
subdirectory, and the bytes of the file otherwise. -/
structure DirEntry where
  name : String
  isDir : Bool
  data : String
  deriving DecidableEq

/-- The state of the directory `dir` the program works in.  When `readable` is
false the operating system refuses to list it, when `writable` is false it
refuses to create or open a file for writing there. -/
structure FileSystem where
  entries : List DirEntry
  readable : Bool
  writable : Bool
  deriving DecidableEq

/-- The names of the entries of the directory. -/
def FileSystem.names (fs : FileSystem) : List String := fs.entries.map DirEntry.name

/-- The call `filepath.Join(dir, name)` for a directory path that is already
clean and the name of an entry. -/
def Join (dir name : String) : String := dir ++ "/" ++ name

/-- The call `os.ReadDir(dir)`: the names of the entries, or `none` for a
non-nil `err`. -/
def ReadDir (fs : FileSystem) : Option (List String) :=
  if fs.readable then some fs.names else none

/-- The entries after `os.WriteFile` on `name`: an existing file is truncated
and rewritten, a missing one is created, a subdirectory makes the call fail. -/
def writeEntries : List DirEntry → String → String → Option (List DirEntry)
  | [], name, data => some [⟨name, false, data⟩]
  | e :: es, name, data =>
    if e.name = name then
      if e.isDir then none else some (⟨e.name, false, data⟩ :: es)
    else (writeEntries es name data).map (fun es1 => e :: es1)

/-- The call `os.WriteFile(filepath.Join(dir, name), data, 0644)`; `none` is a
non-nil `err`, and the directory is then left as it was. -/
def WriteFile (fs : FileSystem) (name data : String) : Option FileSystem :=
  if fs.writable then
    match writeEntries fs.entries name data with
    | some es => some { fs with entries := es }
    | none => none
  else none

/-- Looking a path of the directory up among the entries. -/
def readEntries : List DirEntry → String → String → Option String
  | [], _, _ => none
  | e :: es, dir, path =>
    if Join dir e.name = path then
      if e.isDir then none else some e.data
    else readEntries es dir path

/-- The call `os.ReadFile(path)` for a path inside `dir`; `none` is a non-nil
`err`. -/
def ReadFile (fs : FileSystem) (dir path : String) : Option String :=
  readEntries fs.entries dir path

/-! ## Durations and the fractions standing for `float64` -/

/-- The constant `time.Second`, in nanoseconds. -/
def Second : Int := 1000000000

/-- The constant `depletionTime = 8 * time.Second`. -/
def depletionTime : Int := 8 * Second

/-- A finite `float64` value, as the fraction `num / den` it is equal to. -/
structure Float64 where
  num : Int
  den : Nat
  deriving DecidableEq

/-- The position of the leading binary digit of a positive number; the first
argument bounds the number of digits. -/
def log2Fuel : Nat → Nat → Nat
  | 0, _ => 0
  | fuel + 1, n => if n < 2 then 0 else log2Fuel fuel (n / 2) + 1

/-- The position of the leading binary digit of a positive number. -/
def log2 (n : Nat) : Nat := log2Fuel n n

/-- The binary exponent of the positive fraction `n / d`: the `e` with
`2^e ≤ n / d < 2^(e+1)`. -/
def binade (n d : Nat) : Int :=
  let e : Int := (log2 n : Int) - (log2 d : Int)
  if d * 2 ^ e.toNat ≤ n * 2 ^ (-e).toNat then e else e - 1

/-- The integer nearest to `n / d`, the even one of the two when `n / d` lies
halfway. -/
def roundToEven (n d : Nat) : Nat :=
  let q := n / d
  let r := n % d
  if 2 * r < d then q else if d < 2 * r then q + 1 else if q % 2 = 0 then q else q + 1

/-- The `float64` nearest to the positive fraction `n / d`, as a numerator and a
denominator: the fraction is scaled by a power of two into `[2^52, 2^53)`,
rounded to an integer of 53 bits (ties to even, the IEEE 754 default), and
scaled back.  The exponent is not bounded: the values of this program stay
far from the overflow and underflow thresholds of the format. -/
def round53 (n d : Nat) : Nat × Nat :=
  let e := binade n d
  let up := (52 - e).toNat
  let down := (e - 52).toNat
  (roundToEven (n * 2 ^ up) (d * 2 ^ down) * 2 ^ down, 2 ^ up)

/-- The rounding every `float64` operation ends with: the `float64` nearest to
the exact result `num / den`. -/
def Float64.round (num : Int) (den : Nat) : Float64 :=
  if num = 0 then ⟨0, 1⟩
  else if num < 0 then ⟨-((round53 num.natAbs den).1 : Int), (round53 num.natAbs den).2⟩
  else ⟨((round53 num.natAbs den).1 : Int), (round53 num.natAbs den).2⟩

/-- The conversion `float64(n)` of an integer. -/
def Float64.ofInt (n : Int) : Float64 := Float64.round n 1

/-- The sum of two `float64` values. -/
def Float64.add (a b : Float64) : Float64 :=
  Float64.round (a.num * b.den + b.num * a.den) (a.den * b.den)

/-- The product of two `float64` values. -/
def Float64.mul (a b : Float64) : Float64 := Float64.round (a.num * b.num) (a.den * b.den)

/-- The quotient of two `float64` values, for a divisor that is not zero. -/
def Float64.div (a b : Float64) : Float64 :=
  if b.num < 0 then Float64.round (-(a.num * b.den)) (a.den * b.num.natAbs)
  else Float64.round (a.num * b.den) (a.den * b.num.natAbs)

/-- The conversions `int(x)` and `time.Duration(x)` of a `float64`: the fraction
is discarded, rounding toward zero. -/
def Float64.toInt (x : Float64) : Int := Int.tdiv x.num x.den

/-- The rational number a `float64` is equal to. -/
def Float64.toRat (x : Float64) : ℚ := (x.num : ℚ) / (x.den : ℚ)

/-- The method `Duration.Seconds`:
`float64(d / Second) + float64(d % Second) / 1e9`. -/
def Seconds (d : Int) : Float64 :=
  (Float64.ofInt (Int.tdiv d Second)).add
    ((Float64.ofInt (Int.tmod d Second)).div (Float64.ofInt 1000000000))

/-- The greatest `time.Duration`. -/
def maxDuration : Int := 9223372036854775807

/-- The least `time.Duration`. -/
def minDuration : Int := -9223372036854775808

/-- The call `time.Since(t)` at the instant `now`: the difference `now - t`,
which `Time.Sub` saturates to the range of a `Duration`.  An instant is a
number of nanoseconds counted from the zero `time.Time{}`. -/
def Since (now t : Int) : Int :=
  if now - t > maxDuration then maxDuration
  else if now - t < minDuration then minDuration
  else now - t

/-! ## The life bar and the tick step of `monitorKeystrokes` -/

/-- The type `color.NRGBA`. -/
structure NRGBA where
  r : Nat
  g : Nat
  b : Nat
  a : Nat
  deriving DecidableEq

/-- The gradient `lifeColors`, violet to red. -/
def lifeColors : List NRGBA :=
  [⟨148, 0, 211, 255⟩, ⟨75, 0, 130, 255⟩, ⟨0, 0, 255, 255⟩, ⟨0, 255, 0, 255⟩,
   ⟨255, 255, 0, 255⟩, ⟨255, 165, 0, 255⟩, ⟨255, 0, 0, 255⟩]

/-- The index expression `lifeColors[i]` on an `int`: `none` is the run-time
panic of an index out of range. -/
def colorAt (i : Int) : Option NRGBA :=
  if 0 ≤ i then lifeColors.get? i.toNat else none

/-- The condition `time.Duration(elapsed)*time.Second > depletionTime` of the
save branch. -/
def expired (elapsed : Float64) : Bool :=
  decide (wrapInt64 (elapsed.toInt * Second) > depletionTime)

/-- The expression `100 - int(elapsed*100/depletionTime.Seconds())`. -/
def percentageOf (elapsed : Float64) : Int :=
  wrapInt64 (100 - ((elapsed.mul (Float64.ofInt 100)).div (Seconds depletionTime)).toInt)

/-- The width `float32(960*percentage/100)` handed to `lifeBar.SetMinSize`; the
quotient is the truncating quotient of two `int`s. -/
def barWidthOf (percentage : Int) : Int := Int.tdiv (wrapInt64 (960 * percentage)) 100

/-- The index `int((elapsed / depletionTime.Seconds()) * float64(len(lifeColors)))`,
set to `len(lifeColors) - 1` when it is `len(lifeColors)` or more. -/
def colorIndexOf (elapsed : Float64) : Int :=
  let colorIndex :=
    ((elapsed.div (Seconds depletionTime)).mul (Float64.ofInt lifeColors.length)).toInt
  if colorIndex ≥ lifeColors.length then (lifeColors.length : Int) - 1 else colorIndex

/-- What one iteration of the loop of `monitorKeystrokes` does. -/
inductive Tick where
  | save
  | update (percentage : Int) (width : Int) (fill : NRGBA) (label : String)
  | indexPanic
  deriving DecidableEq

/-- One iteration of the loop of `monitorKeystrokes`, as a function of the
duration `time.Since(lastKeyStrokeTime)`. -/
def tickStep (since : Int) : Tick :=
  let elapsed := Seconds since
  if expired elapsed then Tick.save
  else
    let percentage := percentageOf elapsed
    match colorAt (colorIndexOf elapsed) with
    | none => Tick.indexPanic
    | some c => Tick.update percentage (barWidthOf percentage) c (formatInt percentage ++ "%")

/-! ## The session -/

/-- What the window shows: the text area, the list of the writings, or one
writing read-only.  The last screen remembers whether the `setInitialLayout`
its buttons were given is the one of `main` or the empty `func() {}`. -/
inductive Screen where
  | writing
  | list
  | content (text : String) (returns : Bool)
  deriving DecidableEq

/-- The package-level variables of `main.go`, the fields of the widgets the code
touches, the number of `monitorKeystrokes` goroutines that are running, and
the writings directory. -/
structure Session where
  lastKeyStrokeTime : Int
  timerStarted : Bool
  text : String
  fillColor : NRGBA
  barWidth : Int
  label : String
  monitors : Nat
  screen : Screen
  fs : FileSystem
  deriving DecidableEq

/-- The state `main` sets up before the first event, over a given directory. -/
def initialSession (fs : FileSystem) : Session :=
  ⟨0, false, "", ⟨148, 0, 211, 255⟩, 960, "100%", 0, Screen.writing, fs⟩

/-- The callback `textArea.OnChanged`, run at the instant `now` once the widget
has stored the new `content` in `textArea.Text`. -/
def OnChanged (now : Int) (content : String) (s : Session) : Session :=
  { s with
    text := content
    lastKeyStrokeTime := now
    timerStarted := true
    monitors := if s.timerStarted then s.monitors else s.monitors + 1
    fillColor := lifeColors.getD 0 ⟨0, 0, 0, 0⟩
    barWidth := 960
    label := "100%" }

/-- The function `resetSession`. -/
def resetSession (s : Session) : Session :=
  { s with timerStarted := false, lastKeyStrokeTime := 0 }

/-- The closure `setInitialLayout` of `main`: the window shows the writing
screen. -/
def setInitialLayout (s : Session) : Session :=
  { s with screen := Screen.writing }

/-- The callback of the buttons "Back" and "Write Again": `resetSession()`,
then the `setInitialLayout` the screen was built with. -/
def backButton (s : Session) : Session :=
  match s.screen with
  | Screen.content _ false => resetSession s
  | _ => setInitialLayout (resetSession s)

/-- The function `showWritingsList`: the window shows the list, or stays as it
is when the directory cannot be read. -/
def showWritingsList (s : Session) : Session :=
  match ReadDir s.fs with
  | none => s
  | some _ => { s with screen := Screen.list }

/-- The function `saveWriting`: the path it returns and the directory it
leaves.  A failed write is reported on the console and changes nothing. -/
def saveWriting (dir : String) (text : String) (fs : FileSystem) : String × FileSystem :=
  let filename := getNextFilename (ReadDir fs)
  let filepath := Join dir filename
  match WriteFile fs filename text with
  | some fs1 => (filepath, fs1)
  | none => (filepath, fs)

/-- The function `showWritingContent`: the window shows the content of the file,
or stays as it is when the file cannot be read. -/
def showWritingContent (dir filepath : String) (returns : Bool) (s : Session) : Session :=
  match ReadFile s.fs dir filepath with
  | none => s
  | some content => { s with screen := Screen.content content returns }

/-- One iteration of the loop of one running `monitorKeystrokes` goroutine at
the instant `now`; `none` is a run-time panic.  With no goroutine running
nothing happens. -/
def monitorKeystrokes (dir : String) (now : Int) (s : Session) : Option Session :=
  if s.monitors = 0 then some s
  else
    match tickStep (Since now s.lastKeyStrokeTime) with
    | Tick.save =>
      let saved := saveWriting dir s.text s.fs
      some (showWritingContent dir saved.1 false
        { s with fs := saved.2, monitors := s.monitors - 1 })
    | Tick.update _ width fill label =>
      some { s with barWidth := width, fillColor := fill, label := label }
    | Tick.indexPanic => none

/-- The events of a session: a change of the text area, a click on "View
Writings", a click on a writing of the list, a click on "Back" or "Write
Again", and the ticker of a running `monitorKeystrokes`. -/
inductive Event where
  | keystroke (now : Int) (content : String)
  | viewWritings
  | openWriting (name : String)
  | back
  | tick (now : Int)
  deriving DecidableEq

/-- The effect of one event.  An event of a widget that the current screen does
not show cannot happen and leaves the state as it is. -/
def step (dir : String) (s : Session) : Event → Option Session
  | Event.keystroke now content =>
    if s.screen = Screen.writing then some (OnChanged now content s) else some s
  | Event.viewWritings =>
    if s.screen = Screen.writing then some (showWritingsList s) else some s
  | Event.openWriting name =>
    if s.screen = Screen.list then some (showWritingContent dir (Join dir name) true s)
    else some s
  | Event.back =>
    if s.screen = Screen.writing then some s else some (backButton s)
  | Event.tick now => monitorKeystrokes dir now s

/-- The effect of a sequence of events. -/
def run (dir : String) : Session → List Event → Option Session
  | s, [] => some s
  | s, e :: es =>
    match step dir s e with
    | none => none
    | some s1 => run dir s1 es

/-! ## Properties of the rounding -/

/-- A `float64` that is zero or positive, with a well-formed fraction. -/
def Float64.NonNeg (x : Float64) : Prop := 0 ≤ x.num ∧ 0 < x.den

/-- What the development uses of the rounding `r` of an exact value `z ≥ 0`: it
is within `z / 2^53` of `z`, and no integer lies strictly between the two. -/
def IsRounded (z r : ℚ) : Prop :=
  |r - z| * 2 ^ 53 ≤ z ∧ ∀ K : Int, ((K : ℚ) ≤ z → (K : ℚ) ≤ r) ∧ (z ≤ (K : ℚ) → r ≤ (K : ℚ))

/-! ## The formulas of the specification -/

/-- The elapsed time `t` in seconds of a duration of `d` nanoseconds. -/
def elapsedSeconds (d : Int) : ℚ := (d : ℚ) / 1000000000

/-- The decay threshold of the specification, 8 seconds. -/
def threshold : ℚ := 8

/-- The percentage of the specification, `100 − floor(t·100/threshold)`. -/
def specPercentage (t : ℚ) : Int := 100 - ⌊t * 100 / threshold⌋

/-- The colour index of the specification, `floor((t/threshold)·7)` clamped to
`[0,6]`. -/
def specColorIndex (t : ℚ) : Int := min (max ⌊t / threshold * 7⌋ 0) 6

/-- The events of a session in which the user types `a`, visits the list of
writings, comes back, and types on within half a second, before the monitor
that is already running ticks again. -/
def doubleMonitorStart : List Event :=
  [Event.keystroke 63900000000000000000 "a", Event.viewWritings, Event.back,
   Event.keystroke 63900000000500000000 "ab"]

/-- The ticks of the two monitors after `doubleMonitorStart`, one second apart
each, until both have ended. -/
def doubleMonitorTicks : List Event :=
  [Event.tick 63900000001000000000, Event.tick 63900000001500000000,
         Event.tick 63900000002000000000, Event.tick 63900000002500000000,
         Event.tick 63900000003000000000, Event.tick 63900000003500000000,
         Event.tick 63900000004000000000, Event.tick 63900000004500000000,
         Event.tick 63900000005000000000, Event.tick 63900000005500000000,
         Event.tick 63900000006000000000, Event.tick 63900000006500000000,
         Event.tick 63900000007000000000, Event.tick 63900000007500000000,
         Event.tick 63900000008000000000, Event.tick 63900000008500000000,
         Event.tick 63900000009000000000, Event.tick 63900000009500000000,
         Event.tick 63900000010000000000]

/-- The number `m` is the greatest of the integers that the names of `files`
parse to once their extension is removed. -/
def IsMaxNumber (files : List String) (m : Int) : Prop :=
  (∃ name ∈ files, Atoi (numberStr name) = some m) ∧
    ∀ name ∈ files, ∀ k, Atoi (numberStr name) = some k → k ≤ m

/-! ## The embedding on concrete inputs -/

/-- The next filename on some directory listings: signs, leading zeros, names
without extension, names that are not numbers, and the two ends of the `int`
range. -/
theorem getNextFilename_values :
    getNextFilename none = "1.txt" ∧
      getNextFilename (some []) = "1.txt" ∧
      getNextFilename (some ["1.txt", "2.txt", "10.txt", "notes.md"]) = "11.txt" ∧
      getNextFilename (some ["+4.txt", "007", "-2.txt", "3.tar.gz", ".txt"]) = "8.txt" ∧
      getNextFilename (some ["-5.txt"]) = "-4.txt" ∧
      getNextFilename (some ["9223372036854775808.txt"]) = "1.txt" ∧
      getNextFilename (some ["9223372036854775807.txt"]) = "-9223372036854775808.txt" := by
  decide

set_option maxRecDepth 100000 in
/-- The rounding agrees with IEEE 754 on known values: `0.1 + 0.2` is
`0.30000000000000004`, the integers `2^53 + 1` and `2^53 + 3` go to the even
neighbour, and 2.32 seconds is the `float64` nearest to 2.32. -/
theorem Float64_values :
    ((Float64.ofInt 1).div (Float64.ofInt 10)).add ((Float64.ofInt 2).div (Float64.ofInt 10)) =
        ⟨5404319552844596, 18014398509481984⟩ ∧
      Float64.ofInt 9007199254740993 = ⟨9007199254740992, 1⟩ ∧
      Float64.ofInt 9007199254740995 = ⟨9007199254740996, 1⟩ ∧
      Seconds 2320000000 = ⟨5224175567749775, 2251799813685248⟩ ∧
      (Seconds 2320000000).toInt = 2 := by
  decide

set_option maxRecDepth 100000 in
/-- The tick step at some elapsed times, from zero to the greatest duration. -/
theorem tickStep_values :
    tickStep 0 = Tick.update 100 960 ⟨148, 0, 211, 255⟩ "100%" ∧
      tickStep 3999999999 = Tick.update 51 489 ⟨0, 255, 0, 255⟩ "51%" ∧
      tickStep 8000000000 = Tick.update 0 0 ⟨255, 0, 0, 255⟩ "0%" ∧
      tickStep 8999999999 = Tick.update (-12) (-115) ⟨255, 0, 0, 255⟩ "-12%" ∧
      tickStep 9000000000 = Tick.save ∧
      tickStep 9223372036854775807 = Tick.save := by
  decide

/-! ## Lemmas on the filename functions -/

theorem wrapInt64_of_range (x : Int) (h1 : minInt ≤ x) (h2 : x ≤ maxInt) : wrapInt64 x = x := by
  unfold wrapInt64
  unfold minInt at h1
  unfold maxInt at h2
  omega

theorem wrapInt64_of_bounds (x : Int) (h1 : -9223372036854775808 ≤ x)
    (h2 : x ≤ 9223372036854775807) : wrapInt64 x = x := by
  unfold wrapInt64
  omega

theorem mem_collectNumbers (files : List String) (k : Int) :
    k ∈ collectNumbers files ↔ ∃ name ∈ files, Atoi (numberStr name) = some k := by
  induction files with
  | nil => simp [collectNumbers]
  | cons name rest ih =>
    unfold collectNumbers
    cases h : Atoi (numberStr name) with
    | none => simp [ih, h]
    | some v =>
      simp only [List.mem_cons, ih, exists_eq_or_imp, h, Option.some.injEq]
      constructor
      · rintro (h1 | h1)
        · exact Or.inl h1.symm
        · exact Or.inr h1
      · rintro (h1 | h1)
        · exact Or.inl h1.symm
        · exact Or.inr h1

theorem atoiDigits_range (neg : Bool) (ds : List Char) (v : Int)
    (h : atoiDigits neg ds = some v) : minInt ≤ v ∧ v ≤ maxInt := by
  unfold atoiDigits at h
  split at h
  · simp at h
  · split at h
    · simp at h
    · cases neg <;> simp at h <;> obtain ⟨hr, rfl⟩ := h <;> simpa using hr

theorem Atoi_range (s : String) (v : Int) (h : Atoi s = some v) : minInt ≤ v ∧ v ≤ maxInt := by
  unfold Atoi at h
  split at h
  · simp at h
  · split at h
    · exact atoiDigits_range _ _ _ h
    · split at h
      · exact atoiDigits_range _ _ _ h
      · exact atoiDigits_range _ _ _ h

theorem sorted_le_getLast (l : List Int) (hs : l.Sorted (fun a b => a ≤ b)) (m : Int)
    (hm : l.getLast? = some m) : ∀ x ∈ l, x ≤ m := by
  induction l with
  | nil => simp
  | cons a t ih =>
    intro x hx
    cases t with
    | nil =>
      simp at hm hx
      omega
    | cons b u =>
      have hm2 : (b :: u).getLast? = some m := by
        simpa [List.getLast?_cons_cons] using hm
      have ht := ih (List.Sorted.of_cons hs) hm2
      rcases List.mem_cons.1 hx with h1 | h1
      · have hab : a ≤ b := List.rel_of_sorted_cons hs b (List.mem_cons_self b u)
        have hb := ht b (List.mem_cons_self b u)
        omega
      · exact ht x h1

theorem sortInts_getLast (l : List Int) (m : Int) (hm : (sortInts l).getLast? = some m) :
    m ∈ l ∧ ∀ x ∈ l, x ≤ m := by
  have hp : (sortInts l).Perm l := List.perm_insertionSort _ l
  have hs : (sortInts l).Sorted (fun a b => a ≤ b) := List.sorted_insertionSort _ l
  constructor
  · exact hp.mem_iff.1 (List.mem_of_getLast?_eq_some hm)
  · intro x hx
    exact sorted_le_getLast _ hs m hm x (hp.mem_iff.2 hx)

theorem sortInts_getLast_none (l : List Int) (h : (sortInts l).getLast? = none) : l = [] := by
  have hp : (sortInts l).Perm l := List.perm_insertionSort _ l
  rw [List.getLast?_eq_none_iff] at h
  rw [h] at hp
  exact (List.nil_perm.1 hp)

/-- What `getNextFilename` computes when some name parses: the wrapped successor of
the greatest parsed number. -/
theorem getNextFilename_of_max (files : List String) (m : Int) (h : IsMaxNumber files m) :
    getNextFilename (some files) = formatInt (wrapInt64 (m + 1)) ++ ".txt" := by
  obtain ⟨⟨name, hn, hp⟩, hmax⟩ := h
  have hmem : m ∈ collectNumbers files := (mem_collectNumbers files m).2 ⟨name, hn, hp⟩
  unfold getNextFilename
  cases hl : (sortInts (collectNumbers files)).getLast? with
  | none =>
    have := sortInts_getLast_none _ hl
    rw [this] at hmem
    simp at hmem
  | some last =>
    obtain ⟨h1, h2⟩ := sortInts_getLast _ _ hl
    obtain ⟨n2, hn2, hp2⟩ := (mem_collectNumbers files last).1 h1
    have hle1 : last ≤ m := hmax n2 hn2 last hp2
    have hle2 : m ≤ last := h2 m hmem
    have : last = m := by omega
    simp only [hl, this]

/-- What `getNextFilename` computes when no name parses. -/
theorem getNextFilename_of_none (files : List String)
    (h : ∀ name ∈ files, Atoi (numberStr name) = none) :
    getNextFilename (some files) = "1.txt" := by
  have hnil : collectNumbers files = [] := by
    apply List.eq_nil_iff_forall_not_mem.2
    intro k hk
    obtain ⟨name, hn, hp⟩ := (mem_collectNumbers files k).1 hk
    rw [h name hn] at hp
    simp at hp
  simp only [getNextFilename, hnil]
  rfl

theorem Join_injective (dir a b : String) (h : Join dir a = Join dir b) : a = b := by
  unfold Join at h
  have hd := congrArg String.data h
  simp only [String.data_append, List.append_assoc] at hd
  have := List.append_cancel_left (List.append_cancel_left hd)
  exact String.ext this

theorem readEntries_writeEntries (es es1 : List DirEntry) (dir name data : String)
    (h : writeEntries es name data = some es1) :
    readEntries es1 dir (Join dir name) = some data := by
  induction es generalizing es1 with
  | nil =>
    simp only [writeEntries, Option.some.injEq] at h
    subst h
    simp [readEntries]
  | cons e rest ih =>
    unfold writeEntries at h
    by_cases hn : e.name = name
    · rw [if_pos hn] at h
      by_cases hdir : e.isDir = true
      · simp [hdir] at h
      · simp only [hdir, Bool.false_eq_true, if_false, Option.some.injEq] at h
        subst h
        simp [readEntries, hn]
    · rw [if_neg hn] at h
      cases hw : writeEntries rest name data with
      | none => simp [hw] at h
      | some es2 =>
        simp only [hw, Option.map_some', Option.some.injEq] at h
        subst h
        have hj : Join dir e.name ≠ Join dir name := fun hj => hn (Join_injective _ _ _ hj)
        simp only [readEntries, if_neg hj]
        exact ih es2 hw

theorem saveWriting_fst (dir text : String) (fs : FileSystem) :
    (saveWriting dir text fs).1 = Join dir (getNextFilename (ReadDir fs)) := by
  simp only [saveWriting]
  split <;> rfl

theorem saveWriting_snd (dir text : String) (fs fs1 : FileSystem)
    (h : WriteFile fs (getNextFilename (ReadDir fs)) text = some fs1) :
    (saveWriting dir text fs).2 = fs1 := by
  simp only [saveWriting, h]

theorem WriteFile_some (fs fs1 : FileSystem) (name data : String)
    (h : WriteFile fs name data = some fs1) :
    fs.writable = true ∧ writeEntries fs.entries name data = some fs1.entries := by
  unfold WriteFile at h
  by_cases hwr : fs.writable = true
  · rw [if_pos hwr] at h
    cases he : writeEntries fs.entries name data with
    | none => simp [he] at h
    | some es =>
      simp only [he, Option.some.injEq] at h
      subst h
      exact ⟨hwr, rfl⟩
  · simp [hwr] at h

/-- A write that succeeds leaves the text under the path `saveWriting` returns. -/
theorem ReadFile_saveWriting (dir text : String) (fs : FileSystem)
    (h : (WriteFile fs (getNextFilename (ReadDir fs)) text).isSome = true) :
    ReadFile (saveWriting dir text fs).2 dir (saveWriting dir text fs).1 = some text := by
  obtain ⟨fs1, hw⟩ := Option.isSome_iff_exists.1 h
  rw [saveWriting_fst, saveWriting_snd dir text fs fs1 hw]
  exact readEntries_writeEntries _ _ dir _ _ (WriteFile_some _ _ _ _ hw).2

theorem monitorKeystrokes_of_save (dir : String) (now : Int) (s : Session)
    (hm : s.monitors ≠ 0) (ht : tickStep (Since now s.lastKeyStrokeTime) = Tick.save) :
    monitorKeystrokes dir now s =
      some (showWritingContent dir (saveWriting dir s.text s.fs).1 false
        { s with fs := (saveWriting dir s.text s.fs).2, monitors := s.monitors - 1 }) := by
  unfold monitorKeystrokes
  rw [if_neg hm, ht]

theorem showWritingContent_some (dir path content : String) (returns : Bool) (s : Session)
    (h : ReadFile s.fs dir path = some content) :
    showWritingContent dir path returns s = { s with screen := Screen.content content returns } := by
  unfold showWritingContent
  rw [h]

/-! ## The claims on the filenames and the saved file -/

/-- C1 (counterexample): in a directory whose only entry is
`9223372036854775807.txt` the greatest parsed number is `m = 2^63 - 1`, and
`getNextFilename` returns `-9223372036854775808.txt`, not `<m+1>.txt`: the
`int` sum wraps. -/
theorem getNextFilename_wraps :
    IsMaxNumber ["9223372036854775807.txt"] 9223372036854775807 ∧
      getNextFilename (some ["9223372036854775807.txt"]) = "-9223372036854775808.txt" ∧
      getNextFilename (some ["9223372036854775807.txt"]) ≠
        formatInt (9223372036854775807 + 1) ++ ".txt" := by
  refine ⟨⟨⟨"9223372036854775807.txt", by simp, by decide⟩, ?_⟩, by decide, by decide⟩
  intro name hn k hk
  simp only [List.mem_singleton] at hn
  subst hn
  have : Atoi (numberStr "9223372036854775807.txt") = some 9223372036854775807 := by decide
  rw [this] at hk
  simp only [Option.some.injEq] at hk
  omega

/-- C1 (amended): when `m` is the greatest integer among the entry names that
`strconv.Atoi` accepts once their extension is removed, and `m` is below the
greatest `int`, `getNextFilename` returns `<m+1>.txt`; when no entry name
parses, which includes the empty directory, it returns `1.txt`. -/
theorem getNextFilename_next (files : List String) :
    (∀ m, IsMaxNumber files m → m < maxInt →
        getNextFilename (some files) = formatInt (m + 1) ++ ".txt") ∧
      ((∀ name ∈ files, Atoi (numberStr name) = none) →
        getNextFilename (some files) = "1.txt") := by
  refine ⟨?_, getNextFilename_of_none files⟩
  intro m hmax hlt
  obtain ⟨⟨name, _, hp⟩, _⟩ := id hmax
  have hr := Atoi_range _ _ hp
  rw [getNextFilename_of_max files m hmax, wrapInt64_of_range]
  · omega
  · omega

/-- C1 (witness): the entries `1.txt`, `2.txt`, `10.txt`, `notes.md` give `11.txt`,
and the empty directory gives `1.txt`. -/
theorem getNextFilename_next_witness :
    IsMaxNumber ["1.txt", "2.txt", "10.txt", "notes.md"] 10 ∧ (10 : Int) < maxInt ∧
      getNextFilename (some ["1.txt", "2.txt", "10.txt", "notes.md"]) = "11.txt" ∧
      (∀ name ∈ ([] : List String), Atoi (numberStr name) = none) ∧
      getNextFilename (some []) = "1.txt" := by
  have hmax : IsMaxNumber ["1.txt", "2.txt", "10.txt", "notes.md"] 10 := by
    refine ⟨⟨"10.txt", by simp, by decide⟩, ?_⟩
    intro name hn k hk
    simp only [List.mem_cons, List.mem_singleton, List.not_mem_nil, or_false] at hn
    have h1 : Atoi (numberStr "1.txt") = some 1 := by decide
    have h2 : Atoi (numberStr "2.txt") = some 2 := by decide
    have h3 : Atoi (numberStr "10.txt") = some 10 := by decide
    have h4 : Atoi (numberStr "notes.md") = none := by decide
    rcases hn with h | h | h | h <;> subst h
    · rw [h1] at hk; simp only [Option.some.injEq] at hk; omega
    · rw [h2] at hk; simp only [Option.some.injEq] at hk; omega
    · rw [h3] at hk; simp only [Option.some.injEq] at hk; omega
    · rw [h4] at hk; simp at hk
  have hnone : ∀ name ∈ ([] : List String), Atoi (numberStr name) = none := by simp
  exact ⟨hmax, by decide, (getNextFilename_next _).1 10 hmax (by decide), hnone,
    (getNextFilename_next []).2 hnone⟩

/-- C4: for every text buffer and every directory state in which the write
succeeds, `saveWriting(dir)` returns `dir` joined with the next filename, the
file at that path then holds exactly the text, `showWritingContent` on that
path shows exactly the text, and the tick that saves does both; from an empty
`writings` directory the path is `writings/1.txt`. -/
theorem saveWriting_then_show (dir text : String) (fs : FileSystem)
    (h : (WriteFile fs (getNextFilename (ReadDir fs)) text).isSome = true) :
    (saveWriting dir text fs).1 = Join dir (getNextFilename (ReadDir fs)) ∧
      ReadFile (saveWriting dir text fs).2 dir (saveWriting dir text fs).1 = some text ∧
      (∀ (s : Session) (returns : Bool), s.fs = (saveWriting dir text fs).2 →
        (showWritingContent dir (saveWriting dir text fs).1 returns s).screen =
          Screen.content text returns) ∧
      (∀ (s : Session) (now : Int), s.fs = fs → s.text = text → s.monitors ≠ 0 →
        tickStep (Since now s.lastKeyStrokeTime) = Tick.save →
        ∃ s1, monitorKeystrokes dir now s = some s1 ∧ s1.fs = (saveWriting dir text fs).2 ∧
          s1.screen = Screen.content text false) ∧
      (fs.entries = [] → (saveWriting "writings" text fs).1 = "writings/1.txt") := by
  have hread := ReadFile_saveWriting dir text fs h
  refine ⟨saveWriting_fst dir text fs, hread, ?_, ?_, ?_⟩
  · intro s returns hs
    rw [showWritingContent_some dir _ text returns s (by rw [hs]; exact hread)]
  · intro s now hfs htext hm ht
    subst hfs htext
    refine ⟨_, monitorKeystrokes_of_save dir now s hm ht, ?_, ?_⟩
    · rw [showWritingContent_some dir _ s.text false _ hread]
    · rw [showWritingContent_some dir _ s.text false _ hread]
  · intro he
    rw [saveWriting_fst]
    unfold ReadDir FileSystem.names
    rw [he]
    cases fs.readable <;> decide

/-- C4 (witness): typing `hello` over an empty, writable `writings` directory. -/
theorem saveWriting_then_show_witness :
    (WriteFile ⟨[], true, true⟩ (getNextFilename (ReadDir ⟨[], true, true⟩)) "hello").isSome = true ∧
      (saveWriting "writings" "hello" ⟨[], true, true⟩).1 = "writings/1.txt" ∧
      ReadFile (saveWriting "writings" "hello" ⟨[], true, true⟩).2 "writings" "writings/1.txt" =
        some "hello" := by
  have h : (WriteFile ⟨[], true, true⟩ (getNextFilename (ReadDir ⟨[], true, true⟩)) "hello").isSome = true := by
    decide
  have hw := saveWriting_then_show "writings" "hello" ⟨[], true, true⟩ h
  refine ⟨h, hw.2.2.2.2 rfl, ?_⟩
  have h2 := hw.2.1
  rw [hw.2.2.2.2 rfl] at h2
  exact h2

/-! ## Lemmas on the rounding of `float64` -/

theorem log2Fuel_spec (fuel n : Nat) (hn : 0 < n) (hf : n ≤ fuel) :
    2 ^ log2Fuel fuel n ≤ n ∧ n < 2 ^ (log2Fuel fuel n + 1) := by
  induction fuel generalizing n with
  | zero => omega
  | succ f ih =>
    unfold log2Fuel
    by_cases h2 : n < 2
    · rw [if_pos h2]
      simp only [pow_zero, zero_add, pow_one]
      omega
    · rw [if_neg h2]
      obtain ⟨h1, h3⟩ := ih (n / 2) (by omega) (by omega)
      constructor
      · rw [pow_succ]
        omega
      · rw [pow_succ]
        omega

theorem log2_spec (n : Nat) (hn : 0 < n) : 2 ^ log2 n ≤ n ∧ n < 2 ^ (log2 n + 1) :=
  log2Fuel_spec n n hn (le_refl n)

theorem roundToEven_spec (n d : Nat) (hd : 0 < d) :
    n / d ≤ roundToEven n d ∧ roundToEven n d ≤ n / d + 1 ∧
      (n % d = 0 → roundToEven n d = n / d) ∧
      2 * (roundToEven n d * d) ≤ 2 * n + d ∧ 2 * n ≤ 2 * (roundToEven n d * d) + d ∧
      n < (roundToEven n d + 1) * d ∧ roundToEven n d * d < n + d := by
  have hq2 : ∀ m : Nat, (m + 1) * d = m * d + d := fun m => by ring
  have hdm : d * (n / d) + n % d = n := Nat.div_add_mod n d
  have hr : n % d < d := Nat.mod_lt n hd
  have hq1 : (n / d + 1) * d = d * (n / d) + d := by ring
  have hq0 : n / d * d = d * (n / d) := by ring
  unfold roundToEven
  simp only
  split
  · simp only [hq2, hq0]
    refine ⟨le_refl _, by omega, fun _ => trivial, by omega, by omega, by omega, by omega⟩
  · split
    · simp only [hq2, hq0]
      refine ⟨by omega, le_refl _, fun h => by omega, by omega, by omega, by omega, by omega⟩
    · split
      · simp only [hq2, hq0]
        refine ⟨le_refl _, by omega, fun _ => trivial, by omega, by omega, by omega, by omega⟩
      · simp only [hq2, hq0]
        refine ⟨by omega, le_refl _, fun h => by omega, by omega, by omega, by omega, by omega⟩

theorem scale_le (n d K U P : Nat) (hP : P = K * U) (hc : d * K ≤ n) : d * P ≤ n * U := by
  subst hP
  calc d * (K * U) = d * K * U := by ring
    _ ≤ n * U := Nat.mul_le_mul_right U hc

theorem scale_lt (n d K U Q : Nat) (hQ : Q = K * U) (hU : 0 < U) (hc : n < d * K) :
    n * U < d * Q := by
  subst hQ
  calc n * U < d * K * U := Nat.mul_lt_mul_of_pos_right hc hU
    _ = d * (K * U) := by ring

theorem binade_spec (n d : Nat) (hn : 0 < n) (hd : 0 < d) (hlt : n < d * 2 ^ 53) :
    binade n d ≤ 52 ∧ d * 2 ^ 52 ≤ n * 2 ^ (52 - binade n d).toNat ∧
      n * 2 ^ (52 - binade n d).toNat < d * 2 ^ 53 := by
  obtain ⟨ha1, ha2⟩ := log2_spec n hn
  obtain ⟨hb1, hb2⟩ := log2_spec d hd
  unfold binade
  simp only
  generalize log2 n = a at ha1 ha2 ⊢
  generalize log2 d = b at hb1 hb2 ⊢
  have hp : (2 : Nat) ^ 53 = 2 * 2 ^ 52 := by norm_num
  rcases le_or_lt b a with hba | hba
  · obtain ⟨k, rfl⟩ := Nat.exists_eq_add_of_le hba
    have e1 : (((b + k : Nat) : Int) - (b : Int)).toNat = k := by omega
    have e2 : (-(((b + k : Nat) : Int) - (b : Int))).toNat = 0 := by omega
    rw [e1, e2, pow_zero, mul_one]
    rw [pow_add] at ha1
    rw [show b + k + 1 = b + (k + 1) by omega, pow_add, pow_succ] at ha2
    rw [pow_succ] at hb2
    have hn2 : n < d * (2 ^ k * 2) := lt_of_lt_of_le ha2 (Nat.mul_le_mul_right _ hb1)
    have hk53 : k ≤ 53 := by
      by_contra hc
      have h54 : 2 ^ 53 * 2 ≤ 2 ^ k := by
        rw [← pow_succ]
        exact Nat.pow_le_pow_right (by decide) (by omega)
      have h1 : d * (2 ^ 53 * 2) ≤ d * 2 ^ k := Nat.mul_le_mul_left d h54
      have h2 : 2 ^ b * 2 ^ k < d * 2 ^ 53 := lt_of_le_of_lt ha1 hlt
      have h3 : d * 2 ^ k < 2 ^ b * 2 * 2 ^ k := Nat.mul_lt_mul_of_pos_right hb2 (Nat.two_pow_pos k)
      have h4 : 2 ^ b * 2 * 2 ^ k = 2 * (2 ^ b * 2 ^ k) := by ring
      have h5 : d * (2 ^ 53 * 2) = 2 * (d * 2 ^ 53) := by ring
      omega
    by_cases hc : d * 2 ^ k ≤ n
    · rw [if_pos hc]
      have hk52 : k ≤ 52 := by
        by_contra hc2
        have : k = 53 := by omega
        subst this
        omega
      have e3 : (52 - (((b + k : Nat) : Int) - (b : Int))).toNat = 52 - k := by omega
      rw [e3]
      have hU : (2 : Nat) ^ 52 = 2 ^ k * 2 ^ (52 - k) := by
        rw [← pow_add]
        congr 1
        omega
      have hU3 : (2 : Nat) ^ 53 = 2 ^ k * 2 * 2 ^ (52 - k) := by
        rw [hp, hU]
        ring
      exact ⟨by omega, scale_le n d _ _ _ hU hc,
        scale_lt n d _ _ _ hU3 (Nat.two_pow_pos _) hn2⟩
    · rw [if_neg hc]
      have e3 : (52 - (((b + k : Nat) : Int) - (b : Int) - 1)).toNat = 53 - k := by omega
      rw [e3]
      have hU : (2 : Nat) ^ 53 = 2 ^ k * 2 ^ (53 - k) := by
        rw [← pow_add]
        congr 1
        omega
      refine ⟨by omega, ?_, scale_lt n d _ _ _ hU (Nat.two_pow_pos _) (Nat.lt_of_not_le hc)⟩
      have h5 : 2 ^ b * 2 ^ 53 ≤ n * 2 ^ (53 - k) := by
        rw [hU]
        calc 2 ^ b * (2 ^ k * 2 ^ (53 - k)) = 2 ^ b * 2 ^ k * 2 ^ (53 - k) := by ring
          _ ≤ n * 2 ^ (53 - k) := Nat.mul_le_mul_right _ ha1
      have h6 : d * 2 ^ 52 ≤ 2 ^ b * 2 * 2 ^ 52 := Nat.mul_le_mul_right _ (Nat.le_of_lt hb2)
      have h7 : 2 ^ b * 2 * 2 ^ 52 = 2 ^ b * 2 ^ 53 := by
        rw [hp]
        ring
      omega
  · obtain ⟨k, rfl⟩ := Nat.exists_eq_add_of_le (Nat.le_of_lt hba)
    have e1 : (((a : Nat) : Int) - ((a + k : Nat) : Int)).toNat = 0 := by omega
    have e2 : (-(((a : Nat) : Int) - ((a + k : Nat) : Int))).toNat = k := by omega
    rw [e1, e2, pow_zero, mul_one]
    rw [pow_add] at hb1
    rw [show a + k + 1 = a + (k + 1) by omega, pow_add, pow_succ] at hb2
    rw [pow_succ] at ha2
    by_cases hc : d ≤ n * 2 ^ k
    · rw [if_pos hc]
      have e3 : (52 - (((a : Nat) : Int) - ((a + k : Nat) : Int))).toNat = 52 + k := by omega
      rw [e3, pow_add]
      refine ⟨by omega, ?_, ?_⟩
      · calc d * 2 ^ 52 ≤ n * 2 ^ k * 2 ^ 52 := Nat.mul_le_mul_right _ hc
          _ = n * (2 ^ 52 * 2 ^ k) := by ring
      · have h5 : n * 2 ^ k < 2 ^ a * 2 * 2 ^ k :=
          Nat.mul_lt_mul_of_pos_right ha2 (Nat.two_pow_pos k)
        have h6 : 2 ^ a * 2 * 2 ^ k = 2 * (2 ^ a * 2 ^ k) := by ring
        have h7 : n * 2 ^ k < 2 * d := by omega
        calc n * (2 ^ 52 * 2 ^ k) = n * 2 ^ k * 2 ^ 52 := by ring
          _ < 2 * d * 2 ^ 52 := Nat.mul_lt_mul_of_pos_right h7 (Nat.two_pow_pos 52)
          _ = d * 2 ^ 53 := by rw [hp]; ring
    · rw [if_neg hc]
      have e3 : (52 - (((a : Nat) : Int) - ((a + k : Nat) : Int) - 1)).toNat = 53 + k := by omega
      rw [e3, pow_add]
      refine ⟨by omega, ?_, ?_⟩
      · have h5 : 2 ^ a * (2 ^ k * 2) ≤ n * (2 ^ k * 2) := Nat.mul_le_mul_right _ ha1
        have h6 : d ≤ n * (2 ^ k * 2) := by omega
        calc d * 2 ^ 52 ≤ n * (2 ^ k * 2) * 2 ^ 52 := Nat.mul_le_mul_right _ h6
          _ = n * (2 ^ 53 * 2 ^ k) := by rw [hp]; ring
      · calc n * (2 ^ 53 * 2 ^ k) = n * 2 ^ k * 2 ^ 53 := by ring
          _ < d * 2 ^ 53 := Nat.mul_lt_mul_of_pos_right (Nat.lt_of_not_le hc) (Nat.two_pow_pos 53)

/-- The integer `round53` rounds to has 53 bits: it lies between `2^52` and
`2^53`, and the denominator is the power of two that scales it back. -/
theorem round53_mantissa (n d : Nat) (hn : 0 < n) (hd : 0 < d) (hlt : n < d * 2 ^ 53) :
    (round53 n d).2 = 2 ^ (52 - binade n d).toNat ∧
      2 ^ 52 ≤ (round53 n d).1 ∧ (round53 n d).1 ≤ 2 ^ 53 := by
  obtain ⟨he, hlo, hhi⟩ := binade_spec n d hn hd hlt
  have hdown : (binade n d - 52).toNat = 0 := by omega
  unfold round53
  simp only [hdown, pow_zero, mul_one]
  generalize (52 - binade n d).toNat = s at hlo hhi ⊢
  obtain ⟨hq, hq1, _, _, _, _, _⟩ := roundToEven_spec (n * 2 ^ s) d hd
  have hlo2 : 2 ^ 52 * d ≤ n * 2 ^ s := by
    rw [mul_comm (2 ^ 52) d]
    exact hlo
  have hhi2 : n * 2 ^ s < 2 ^ 53 * d := by
    rw [mul_comm (2 ^ 53) d]
    exact hhi
  have h52 : 2 ^ 52 ≤ n * 2 ^ s / d := (Nat.le_div_iff_mul_le hd).2 hlo2
  have h53 : n * 2 ^ s / d < 2 ^ 53 := (Nat.div_lt_iff_lt_mul hd).2 hhi2
  refine ⟨trivial, le_trans h52 hq, ?_⟩
  omega

/-- The properties of `round53` the development relies on: the result is within
half a unit in the last place of the exact value, and it does not cross an
integer. -/
theorem round53_spec (n d : Nat) (hn : 0 < n) (hd : 0 < d) (hlt : n < d * 2 ^ 53) :
    0 < (round53 n d).2 ∧
      |((round53 n d).1 : ℚ) / ((round53 n d).2 : ℚ) - (n : ℚ) / (d : ℚ)| * 2 ^ 53 ≤
        (n : ℚ) / (d : ℚ) ∧
      ∀ K : Int, (((K : ℚ) ≤ (n : ℚ) / (d : ℚ) →
          (K : ℚ) ≤ ((round53 n d).1 : ℚ) / ((round53 n d).2 : ℚ)) ∧
        ((n : ℚ) / (d : ℚ) ≤ (K : ℚ) →
          ((round53 n d).1 : ℚ) / ((round53 n d).2 : ℚ) ≤ (K : ℚ))) := by
  obtain ⟨he, hlo, _⟩ := binade_spec n d hn hd hlt
  have hdown : (binade n d - 52).toNat = 0 := by omega
  unfold round53
  simp only [hdown, pow_zero, mul_one]
  generalize (52 - binade n d).toNat = s at hlo ⊢
  obtain ⟨_, _, _, hr1, hr2, hfl, hce⟩ := roundToEven_spec (n * 2 ^ s) d hd
  generalize roundToEven (n * 2 ^ s) d = m at hr1 hr2 hfl hce ⊢
  have hS : (0 : ℚ) < ((2 ^ s : Nat) : ℚ) := by exact_mod_cast Nat.two_pow_pos s
  have hdq : (0 : ℚ) < (d : ℚ) := by exact_mod_cast hd
  generalize hSdef : ((2 ^ s : Nat) : ℚ) = S at hS
  have q1 : 2 * ((m : ℚ) * d) ≤ 2 * ((n : ℚ) * S) + d := by
    rw [← hSdef]
    exact_mod_cast hr1
  have q2 : 2 * ((n : ℚ) * S) ≤ 2 * ((m : ℚ) * d) + d := by
    rw [← hSdef]
    exact_mod_cast hr2
  have q3 : (d : ℚ) * 2 ^ 52 ≤ (n : ℚ) * S := by
    rw [← hSdef]
    exact_mod_cast hlo
  refine ⟨Nat.two_pow_pos s, ?_, ?_⟩
  · have hX : |(m : ℚ) * d - (n : ℚ) * S| ≤ (d : ℚ) / 2 :=
      abs_le.2 ⟨by linarith, by linarith⟩
    have heq : (m : ℚ) / S - (n : ℚ) / d = ((m : ℚ) * d - (n : ℚ) * S) / (S * d) := by
      field_simp
      ring
    rw [heq, abs_div, abs_of_pos (mul_pos hS hdq), div_mul_eq_mul_div,
      div_le_div_iff₀ (mul_pos hS hdq) hdq]
    have h53 : (2 : ℚ) ^ 53 = 2 * 2 ^ 52 := by norm_num
    rw [h53]
    have hXn : 0 ≤ |(m : ℚ) * d - (n : ℚ) * S| := abs_nonneg _
    have hp52 : (0 : ℚ) < 2 ^ 52 := by positivity
    generalize |(m : ℚ) * d - (n : ℚ) * S| = X at hX hXn
    generalize (2 : ℚ) ^ 52 = P at q3 hp52
    have h1 : X * (2 * P) ≤ d * P := by nlinarith
    have h2 : X * (2 * P) * d ≤ d * P * d := mul_le_mul_of_nonneg_right h1 (le_of_lt hdq)
    have h3 : d * P * d ≤ n * S * d := mul_le_mul_of_nonneg_right q3 (le_of_lt hdq)
    calc X * (2 * P) * d ≤ n * S * d := le_trans h2 h3
      _ = n * (S * d) := by ring
  · intro K
    constructor
    · intro hK
      rw [le_div_iff₀ hdq] at hK
      rw [le_div_iff₀ hS]
      by_contra hc
      have hlt2 : (m : Int) < K * ((2 ^ s : Nat) : Int) := by
        have : (m : ℚ) < (K : ℚ) * ((2 ^ s : Nat) : ℚ) := by
          rw [hSdef]
          exact lt_of_not_le hc
        exact_mod_cast this
      have hle : (m : ℚ) + 1 ≤ (K : ℚ) * S := by
        rw [← hSdef]
        exact_mod_cast Int.add_one_le_iff.2 hlt2
      have hfl2 : (n : ℚ) * S < ((m : ℚ) + 1) * d := by
        rw [← hSdef]
        exact_mod_cast hfl
      have h4 : ((m : ℚ) + 1) * d ≤ (K : ℚ) * S * d := mul_le_mul_of_nonneg_right hle (le_of_lt hdq)
      have h5 : (K : ℚ) * d * S ≤ (n : ℚ) * S := mul_le_mul_of_nonneg_right hK (le_of_lt hS)
      nlinarith
    · intro hK
      rw [div_le_iff₀ hdq] at hK
      rw [div_le_iff₀ hS]
      by_contra hc
      have hlt2 : K * ((2 ^ s : Nat) : Int) < (m : Int) := by
        have : (K : ℚ) * ((2 ^ s : Nat) : ℚ) < (m : ℚ) := by
          rw [hSdef]
          exact lt_of_not_le hc
        exact_mod_cast this
      have hle : (K : ℚ) * S + 1 ≤ (m : ℚ) := by
        rw [← hSdef]
        exact_mod_cast Int.add_one_le_iff.2 hlt2
      have hce2 : (m : ℚ) * d < (n : ℚ) * S + d := by
        rw [← hSdef]
        exact_mod_cast hce
      have h4 : ((K : ℚ) * S + 1) * d ≤ (m : ℚ) * d := mul_le_mul_of_nonneg_right hle (le_of_lt hdq)
      have h5 : (n : ℚ) * S ≤ (K : ℚ) * d * S := mul_le_mul_of_nonneg_right hK (le_of_lt hS)
      nlinarith

theorem round_spec (num : Int) (den : Nat) (h0 : 0 ≤ num) (hd : 0 < den)
    (hlt : (num : ℚ) / (den : ℚ) < 2 ^ 53) :
    (Float64.round num den).NonNeg ∧
      IsRounded ((num : ℚ) / (den : ℚ)) (Float64.round num den).toRat := by
  have hdq : (0 : ℚ) < (den : ℚ) := by exact_mod_cast hd
  unfold Float64.round
  by_cases hz : num = 0
  · rw [if_pos hz]
    subst hz
    refine ⟨⟨le_refl _, Nat.one_pos⟩, ?_, ?_⟩
    · simp [Float64.toRat]
    · intro K
      simp [Float64.toRat]
  · rw [if_neg hz, if_neg (by omega)]
    have hn : 0 < num.natAbs := by omega
    have hcast : ((num.natAbs : Nat) : Int) = num := by omega
    have hq : ((num.natAbs : Nat) : ℚ) = (num : ℚ) :=
      (Int.cast_natCast num.natAbs).symm.trans (congrArg Int.cast hcast)
    have hlt2 : num.natAbs < den * 2 ^ 53 := by
      rw [div_lt_iff₀ hdq, ← hq] at hlt
      have : ((num.natAbs : Nat) : ℚ) < ((den * 2 ^ 53 : Nat) : ℚ) := by
        push_cast
        linarith
      exact_mod_cast this
    obtain ⟨h1, h2, h3⟩ := round53_spec num.natAbs den hn hd hlt2
    rw [hq] at h2 h3
    refine ⟨⟨Int.natCast_nonneg _, h1⟩, ?_, ?_⟩
    · simpa [Float64.toRat] using h2
    · intro K
      simpa [Float64.toRat] using h3 K

theorem IsRounded.nonneg {z r : ℚ} (h : IsRounded z r) (hz : 0 ≤ z) : 0 ≤ r := by
  have := (h.2 0).1 (by simpa using hz)
  simpa using this

theorem IsRounded.upper {z r : ℚ} (h : IsRounded z r) : (r - z) * 2 ^ 53 ≤ z :=
  le_trans (mul_le_mul_of_nonneg_right (le_abs_self _) (by positivity)) h.1

theorem IsRounded.lower {z r : ℚ} (h : IsRounded z r) : (z - r) * 2 ^ 53 ≤ z :=
  le_trans (mul_le_mul_of_nonneg_right (by rw [← abs_sub_comm]; exact le_abs_self _)
    (by positivity)) h.1

theorem IsRounded.of_int {z r : ℚ} (h : IsRounded z r) (K : Int) (hz : z = (K : ℚ)) : r = (K : ℚ) :=
  le_antisymm ((h.2 K).2 (le_of_eq hz)) ((h.2 K).1 (le_of_eq hz.symm))

theorem Float64.NonNeg.toRat_nonneg {x : Float64} (h : x.NonNeg) : 0 ≤ x.toRat := by
  unfold Float64.toRat
  have h1 : (0 : ℚ) ≤ (x.num : ℚ) := by exact_mod_cast h.1
  have h2 : (0 : ℚ) < (x.den : ℚ) := by exact_mod_cast h.2
  exact div_nonneg h1 (le_of_lt h2)

theorem Float64.ofInt_spec (n : Int) (h0 : 0 ≤ n) (hlt : n < 2 ^ 53) :
    (Float64.ofInt n).NonNeg ∧ (Float64.ofInt n).toRat = (n : ℚ) := by
  have hq : ((n : ℚ)) / ((1 : Nat) : ℚ) = (n : ℚ) := by simp
  have hltq : (n : ℚ) < 2 ^ 53 := by exact_mod_cast hlt
  obtain ⟨h1, h2⟩ := round_spec n 1 h0 Nat.one_pos (by rw [hq]; exact hltq)
  exact ⟨h1, h2.of_int n hq⟩

theorem Float64.add_spec (a b : Float64) (ha : a.NonNeg) (hb : b.NonNeg)
    (hlt : a.toRat + b.toRat < 2 ^ 53) :
    (a.add b).NonNeg ∧ IsRounded (a.toRat + b.toRat) (a.add b).toRat := by
  have h1 : (0 : ℚ) < (a.den : ℚ) := by exact_mod_cast ha.2
  have h2 : (0 : ℚ) < (b.den : ℚ) := by exact_mod_cast hb.2
  have hex : (((a.num * b.den + b.num * a.den : Int) : ℚ)) / ((a.den * b.den : Nat) : ℚ) =
      a.toRat + b.toRat := by
    unfold Float64.toRat
    push_cast
    field_simp
  have hnn : 0 ≤ a.num * b.den + b.num * a.den :=
    add_nonneg (mul_nonneg ha.1 (Int.natCast_nonneg _)) (mul_nonneg hb.1 (Int.natCast_nonneg _))
  have := round_spec (a.num * b.den + b.num * a.den) (a.den * b.den) hnn
    (Nat.mul_pos ha.2 hb.2) (by rw [hex]; exact hlt)
  rw [hex] at this
  exact this

theorem Float64.mul_spec (a b : Float64) (ha : a.NonNeg) (hb : b.NonNeg)
    (hlt : a.toRat * b.toRat < 2 ^ 53) :
    (a.mul b).NonNeg ∧ IsRounded (a.toRat * b.toRat) (a.mul b).toRat := by
  have h1 : (0 : ℚ) < (a.den : ℚ) := by exact_mod_cast ha.2
  have h2 : (0 : ℚ) < (b.den : ℚ) := by exact_mod_cast hb.2
  have hex : (((a.num * b.num : Int) : ℚ)) / ((a.den * b.den : Nat) : ℚ) =
      a.toRat * b.toRat := by
    unfold Float64.toRat
    push_cast
    field_simp
  have := round_spec (a.num * b.num) (a.den * b.den) (mul_nonneg ha.1 hb.1)
    (Nat.mul_pos ha.2 hb.2) (by rw [hex]; exact hlt)
  rw [hex] at this
  exact this

theorem Float64.div_spec (a b : Float64) (ha : a.NonNeg) (hb : b.NonNeg) (hpos : 0 < b.num)
    (hlt : a.toRat / b.toRat < 2 ^ 53) :
    (a.div b).NonNeg ∧ IsRounded (a.toRat / b.toRat) (a.div b).toRat := by
  have h1 : (0 : ℚ) < (a.den : ℚ) := by exact_mod_cast ha.2
  have h2 : (0 : ℚ) < (b.den : ℚ) := by exact_mod_cast hb.2
  have h3 : (0 : ℚ) < (b.num : ℚ) := by exact_mod_cast hpos
  have hcast : ((b.num.natAbs : Nat) : Int) = b.num := by omega
  have hq : ((b.num.natAbs : Nat) : ℚ) = (b.num : ℚ) :=
    (Int.cast_natCast b.num.natAbs).symm.trans (congrArg Int.cast hcast)
  have hex : (((a.num * b.den : Int) : ℚ)) / ((a.den * b.num.natAbs : Nat) : ℚ) =
      a.toRat / b.toRat := by
    unfold Float64.toRat
    push_cast
    rw [hq]
    field_simp
  have := round_spec (a.num * b.den) (a.den * b.num.natAbs)
    (mul_nonneg ha.1 (Int.natCast_nonneg _)) (Nat.mul_pos ha.2 (by omega)) (by rw [hex]; exact hlt)
  rw [hex] at this
  unfold Float64.div
  rw [if_neg (by omega)]
  exact this

theorem Float64.toInt_spec (x : Float64) (hx : x.NonNeg) : x.toInt = ⌊x.toRat⌋ := by
  unfold Float64.toInt Float64.toRat
  rw [Int.tdiv_eq_ediv hx.1 (Int.natCast_nonneg _), Rat.floor_intCast_div_natCast]

/-! ## Lemmas on the tick step -/

theorem Float64.NonNeg.num_pos {x : Float64} (h : x.NonNeg) (hp : 0 < x.toRat) : 0 < x.num := by
  rcases lt_or_eq_of_le h.1 with h1 | h1
  · exact h1
  · unfold Float64.toRat at hp
    rw [← h1] at hp
    simp at hp

/-- The value of `Duration.Seconds` on a duration that is not negative: at least
the whole seconds, and within `(t + 2) / 2^53` of the exact `t`. -/
theorem Seconds_spec (d : Int) (h0 : 0 ≤ d) (h1 : d ≤ maxDuration) :
    (Seconds d).NonNeg ∧ ((d / 1000000000 : Int) : ℚ) ≤ (Seconds d).toRat ∧
      ((Seconds d).toRat - elapsedSeconds d) * 2 ^ 53 ≤ elapsedSeconds d + 2 ∧
      (elapsedSeconds d - (Seconds d).toRat) * 2 ^ 53 ≤ elapsedSeconds d + 2 := by
  unfold maxDuration at h1
  have hSec : Seconds d = (Float64.ofInt (d / 1000000000)).add
      ((Float64.ofInt (d % 1000000000)).div (Float64.ofInt 1000000000)) := by
    unfold Seconds Second
    rw [Int.tdiv_eq_ediv h0 (by decide), Int.tmod_eq_emod h0 (by decide)]
  rw [hSec]
  have hsec0 : 0 ≤ d / 1000000000 := by omega
  have hsec1 : d / 1000000000 ≤ 9223372036 := by omega
  have hns0 : 0 ≤ d % 1000000000 := by omega
  have hns1 : d % 1000000000 < 1000000000 := by omega
  have hdecomp : d = 1000000000 * (d / 1000000000) + d % 1000000000 := by omega
  have ht : elapsedSeconds d =
      ((d / 1000000000 : Int) : ℚ) + ((d % 1000000000 : Int) : ℚ) / 1000000000 := by
    unfold elapsedSeconds
    have : (d : ℚ) = 1000000000 * ((d / 1000000000 : Int) : ℚ) + ((d % 1000000000 : Int) : ℚ) := by
      exact_mod_cast hdecomp
    rw [this]
    field_simp
    ring
  have hsq0 : (0 : ℚ) ≤ ((d / 1000000000 : Int) : ℚ) := by exact_mod_cast hsec0
  have hsq1 : ((d / 1000000000 : Int) : ℚ) ≤ 9223372036 := by exact_mod_cast hsec1
  have hnq0 : (0 : ℚ) ≤ ((d % 1000000000 : Int) : ℚ) := by exact_mod_cast hns0
  have hnq1 : ((d % 1000000000 : Int) : ℚ) < 1000000000 := by exact_mod_cast hns1
  obtain ⟨hA, hAr⟩ := Float64.ofInt_spec (d / 1000000000) hsec0 (by norm_num; omega)
  obtain ⟨hB, hBr⟩ := Float64.ofInt_spec (d % 1000000000) hns0 (by norm_num; omega)
  obtain ⟨hC, hCr⟩ := Float64.ofInt_spec 1000000000 (by decide) (by norm_num)
  have hCpos : 0 < (Float64.ofInt 1000000000).num := hC.num_pos (by rw [hCr]; norm_num)
  have hf1 : ((d % 1000000000 : Int) : ℚ) / 1000000000 < 1 := by
    rw [div_lt_iff₀ (by norm_num)]
    linarith
  have hf0 : (0 : ℚ) ≤ ((d % 1000000000 : Int) : ℚ) / 1000000000 := by positivity
  obtain ⟨hG, hGr⟩ := Float64.div_spec (Float64.ofInt (d % 1000000000)) (Float64.ofInt 1000000000)
    hB hC hCpos (by rw [hBr, hCr]; push_cast; linarith [show (1 : ℚ) < 2 ^ 53 by norm_num])
  rw [hBr, hCr] at hGr
  push_cast at hGr
  have hG0 := hGr.nonneg hf0
  have hG1 : ((Float64.ofInt (d % 1000000000)).div (Float64.ofInt 1000000000)).toRat ≤ 1 := by
    have := (hGr.2 1).2 (by push_cast; linarith)
    simpa using this
  have hGu := hGr.upper
  have hGl := hGr.lower
  generalize ((Float64.ofInt (d % 1000000000)).div (Float64.ofInt 1000000000)) = G at *
  obtain ⟨hE, hEr⟩ := Float64.add_spec (Float64.ofInt (d / 1000000000)) G hA hG
    (by rw [hAr]; linarith [show (9223372037 : ℚ) < 2 ^ 53 by norm_num])
  rw [hAr] at hEr
  have hEu := hEr.upper
  have hEl := hEr.lower
  have hEg := (hEr.2 (d / 1000000000)).1 (by linarith)
  generalize ((Float64.ofInt (d / 1000000000)).add G).toRat = E at *
  norm_num at hGu hGl hEu hEl ⊢
  rw [ht]
  refine ⟨hE, hEg, ?_, ?_⟩
  · linarith
  · linarith

theorem elapsedSeconds_mul (d : Int) : elapsedSeconds d * 1000000000 = (d : ℚ) := by
  unfold elapsedSeconds
  field_simp

/-- The save branch is taken exactly from 9 seconds on. -/
theorem expired_iff (d : Int) (h0 : 0 ≤ d) (h1 : d ≤ maxDuration) :
    expired (Seconds d) = true ↔ 9 * Second ≤ d := by
  obtain ⟨hN, hlo, hu, _⟩ := Seconds_spec d h0 h1
  have ht := elapsedSeconds_mul d
  have hE0 := hN.toRat_nonneg
  unfold maxDuration at h1
  have hdq1 : (d : ℚ) ≤ 9223372036854775807 := by exact_mod_cast h1
  have hfl0 : 0 ≤ ⌊(Seconds d).toRat⌋ := Int.floor_nonneg.2 hE0
  have hfl1 : ⌊(Seconds d).toRat⌋ ≤ 9223372036 := by
    rw [← Int.lt_add_one_iff, Int.floor_lt]
    norm_num at hu ⊢
    linarith
  unfold expired depletionTime Second
  rw [Float64.toInt_spec _ hN, wrapInt64_of_bounds _ (by omega) (by omega)]
  simp only [decide_eq_true_eq]
  constructor
  · intro h
    have h9 : (9 : Int) ≤ ⌊(Seconds d).toRat⌋ := by omega
    rw [Int.le_floor] at h9
    by_contra hc
    have hd9 : d ≤ 8999999999 := by omega
    have hdq9 : (d : ℚ) ≤ 8999999999 := by exact_mod_cast hd9
    norm_num at hu h9
    linarith
  · intro h
    have hs9 : (9 : Int) ≤ d / 1000000000 := by omega
    have hsq9 : ((9 : Int) : ℚ) ≤ ((d / 1000000000 : Int) : ℚ) := by exact_mod_cast hs9
    have h9 : (9 : Int) ≤ ⌊(Seconds d).toRat⌋ := by
      rw [Int.le_floor]
      exact le_trans hsq9 hlo
    omega

set_option maxRecDepth 100000 in
theorem Seconds_depletionTime :
    (Seconds depletionTime).NonNeg ∧ 0 < (Seconds depletionTime).num ∧
      (Seconds depletionTime).toRat = 8 := by
  have h : Seconds depletionTime = ⟨4503599627370496, 562949953421312⟩ := by decide
  rw [h]
  refine ⟨⟨by decide, by decide⟩, by decide, ?_⟩
  unfold Float64.toRat
  norm_num

/-- The percentage of a tick that does not save: the exact `100 - floor(d / 80ms)`,
or one more when the duration is a whole multiple of 80 ms. -/
theorem percentageOf_spec (d : Int) (h0 : 0 ≤ d) (h9 : d < 9 * Second) :
    100 - d / 80000000 ≤ percentageOf (Seconds d) ∧
      percentageOf (Seconds d) ≤ 100 - d / 80000000 + 1 ∧
      (d % 80000000 ≠ 0 → percentageOf (Seconds d) = 100 - d / 80000000) ∧
      percentageOf (Seconds d) ≤ 100 := by
  unfold Second at h9
  have h1 : d ≤ maxDuration := by unfold maxDuration; omega
  obtain ⟨hN, _, hu, hl⟩ := Seconds_spec d h0 h1
  obtain ⟨hD, hDpos, hDr⟩ := Seconds_depletionTime
  have ht := elapsedSeconds_mul d
  have hE0 := hN.toRat_nonneg
  have hdq0 : (0 : ℚ) ≤ (d : ℚ) := by exact_mod_cast h0
  have hdq9 : (d : ℚ) ≤ 8999999999 := by exact_mod_cast (by omega : d ≤ 8999999999)
  obtain ⟨hH, hHr⟩ := Float64.ofInt_spec 100 (by decide) (by norm_num)
  norm_num at hu hl
  have hE9 : (Seconds d).toRat ≤ 10 := by linarith
  obtain ⟨hX, hXr⟩ := Float64.mul_spec (Seconds d) (Float64.ofInt 100) hN hH
    (by rw [hHr]; push_cast; linarith [show (1000 : ℚ) < 2 ^ 53 by norm_num])
  rw [hHr] at hXr
  push_cast at hXr
  have hXu := hXr.upper
  have hXl := hXr.lower
  norm_num at hXu hXl
  have hX0 := hX.toRat_nonneg
  have hX9 : ((Seconds d).mul (Float64.ofInt 100)).toRat ≤ 1001 := by linarith
  obtain ⟨hY, hYr⟩ := Float64.div_spec ((Seconds d).mul (Float64.ofInt 100))
    (Seconds depletionTime) hX hD hDpos
    (by rw [hDr]; linarith [show (1000 : ℚ) < 2 ^ 53 by norm_num])
  rw [hDr] at hYr
  have hYu := hYr.upper
  have hYl := hYr.lower
  norm_num at hYu hYl
  have hk0 : 0 ≤ d / 80000000 := by omega
  have hk1 : d / 80000000 ≤ 112 := by omega
  have hklo : (80000000 : ℚ) * ((d / 80000000 : Int) : ℚ) ≤ (d : ℚ) := by
    exact_mod_cast (by omega : 80000000 * (d / 80000000) ≤ d)
  have hkhi : (d : ℚ) ≤ 80000000 * ((d / 80000000 : Int) : ℚ) + 79999999 := by
    exact_mod_cast (by omega : d ≤ 80000000 * (d / 80000000) + 79999999)
  have hfl : d / 80000000 - 1 ≤
        ⌊(((Seconds d).mul (Float64.ofInt 100)).div (Seconds depletionTime)).toRat⌋ ∧
      ⌊(((Seconds d).mul (Float64.ofInt 100)).div (Seconds depletionTime)).toRat⌋ ≤
        d / 80000000 ∧
      (d % 80000000 ≠ 0 → d / 80000000 ≤
        ⌊(((Seconds d).mul (Float64.ofInt 100)).div (Seconds depletionTime)).toRat⌋) := by
    refine ⟨?_, ?_, ?_⟩
    · rw [Int.le_floor]
      push_cast
      linarith
    · rw [← Int.lt_add_one_iff, Int.floor_lt]
      push_cast
      linarith
    · intro hr
      have hklo2 : (80000000 : ℚ) * ((d / 80000000 : Int) : ℚ) + 1 ≤ (d : ℚ) := by
        exact_mod_cast (by omega : 80000000 * (d / 80000000) + 1 ≤ d)
      rw [Int.le_floor]
      linarith
  have hq0 : 0 ≤
      ⌊(((Seconds d).mul (Float64.ofInt 100)).div (Seconds depletionTime)).toRat⌋ :=
    Int.floor_nonneg.2 hY.toRat_nonneg
  unfold percentageOf
  rw [Float64.toInt_spec _ hY]
  generalize ⌊(((Seconds d).mul (Float64.ofInt 100)).div (Seconds depletionTime)).toRat⌋ = q
    at hfl hq0 ⊢
  rw [wrapInt64_of_bounds _ (by omega) (by omega)]
  refine ⟨by omega, by omega, fun hr => ?_, by omega⟩
  have := hfl.2.2 hr
  omega

set_option maxRecDepth 100000 in
theorem colorIndexOf_boundary :
    colorIndexOf (Seconds 0) = 0 ∧ colorIndexOf (Seconds 8000000000) = 6 := by
  decide

theorem boundary_durations (d : Int) (h0 : 0 ≤ d) (h9 : d < 9000000000)
    (hb : d * 7 % 8000000000 = 0) : d = 0 ∨ d = 8000000000 := by
  have hdvd : (8000000000 : Int) ∣ d * 7 := Int.dvd_of_emod_eq_zero hb
  have hcop : IsCoprime (8000000000 : Int) 7 := ⟨-1, 1142857143, by norm_num⟩
  obtain ⟨j, hj⟩ := hcop.dvd_of_dvd_mul_right hdvd
  clear hb hdvd
  omega

/-- The colour index of a tick that does not save is the exact
`floor(7 d / 8 s)`, at most 6. -/
theorem colorIndexOf_spec (d : Int) (h0 : 0 ≤ d) (h9 : d < 9 * Second) :
    colorIndexOf (Seconds d) = min (d * 7 / 8000000000) 6 := by
  unfold Second at h9
  by_cases hb : d * 7 % 8000000000 = 0
  · rcases boundary_durations d h0 (by linarith) hb with hd | hd
    · subst hd
      exact colorIndexOf_boundary.1
    · subst hd
      exact colorIndexOf_boundary.2
  · have h1 : d ≤ maxDuration := by unfold maxDuration; linarith
    obtain ⟨hN, _, hu, hl⟩ := Seconds_spec d h0 h1
    obtain ⟨hD, hDpos, hDr⟩ := Seconds_depletionTime
    have ht := elapsedSeconds_mul d
    have hE0 := hN.toRat_nonneg
    have hdq0 : (0 : ℚ) ≤ (d : ℚ) := by exact_mod_cast h0
    have hdq9 : (d : ℚ) ≤ 8999999999 := by exact_mod_cast (by linarith : d ≤ 8999999999)
    have hlen : ((lifeColors.length : Nat) : Int) = 7 := by decide
    obtain ⟨hS, hSr⟩ := Float64.ofInt_spec 7 (by decide) (by norm_num)
    norm_num at hu hl
    have hE9 : (Seconds d).toRat ≤ 10 := by linarith
    obtain ⟨hW, hWr⟩ := Float64.div_spec (Seconds d) (Seconds depletionTime) hN hD hDpos
      (by rw [hDr]; linarith [show (1000 : ℚ) < 2 ^ 53 by norm_num])
    rw [hDr] at hWr
    have hWu := hWr.upper
    have hWl := hWr.lower
    norm_num at hWu hWl
    have hW0 := hW.toRat_nonneg
    have hW9 : ((Seconds d).div (Seconds depletionTime)).toRat ≤ 2 := by linarith
    obtain ⟨hV, hVr⟩ := Float64.mul_spec ((Seconds d).div (Seconds depletionTime))
      (Float64.ofInt 7) hW hS
      (by rw [hSr]; push_cast; linarith [show (1000 : ℚ) < 2 ^ 53 by norm_num])
    rw [hSr] at hVr
    push_cast at hVr
    have hVu := hVr.upper
    have hVl := hVr.lower
    norm_num at hVu hVl
    have hfl : ⌊(((Seconds d).div (Seconds depletionTime)).mul (Float64.ofInt 7)).toRat⌋ =
          d * 7 / 8000000000 ∧ d * 7 / 8000000000 ≤ 7 := by
      obtain ⟨e, he⟩ : ∃ e : Int, e = d * 7 := ⟨_, rfl⟩
      have he0 : 0 ≤ e := by linarith
      have he9 : e ≤ 62999999993 := by linarith
      have heq : (e : ℚ) = (d : ℚ) * 7 := by exact_mod_cast he
      rw [← he] at hb ⊢
      clear he
      have hklo : (8000000000 : ℚ) * ((e / 8000000000 : Int) : ℚ) + 1 ≤ (e : ℚ) := by
        exact_mod_cast (by omega : 8000000000 * (e / 8000000000) + 1 ≤ e)
      have hkhi : (e : ℚ) ≤ 8000000000 * ((e / 8000000000 : Int) : ℚ) + 7999999999 := by
        exact_mod_cast (by omega : e ≤ 8000000000 * (e / 8000000000) + 7999999999)
      refine ⟨?_, by omega⟩
      rw [Int.floor_eq_iff]
      constructor
      · linarith
      · linarith
    have hk0 : 0 ≤ d * 7 / 8000000000 := Int.ediv_nonneg (by linarith) (by decide)
    unfold colorIndexOf
    simp only [hlen]
    rw [Float64.toInt_spec _ hV, hfl.1]
    have hk7 := hfl.2
    generalize d * 7 / 8000000000 = k at hk0 hk7 ⊢
    split <;> omega

theorem Since_le (now t : Int) : Since now t ≤ maxDuration := by
  unfold Since
  split
  · exact le_refl _
  · split
    · decide
    · omega

theorem specPercentage_eq (d : Int) : specPercentage (elapsedSeconds d) = 100 - d / 80000000 := by
  unfold specPercentage elapsedSeconds threshold
  have h : (d : ℚ) / 1000000000 * 100 / 8 = (d : ℚ) / ((80000000 : ℕ) : ℚ) := by
    push_cast
    ring
  rw [h, Rat.floor_intCast_div_natCast]
  rfl

theorem specColorIndex_eq (d : Int) :
    specColorIndex (elapsedSeconds d) = min (max (d * 7 / 8000000000) 0) 6 := by
  unfold specColorIndex elapsedSeconds threshold
  have h : (d : ℚ) / 1000000000 / 8 * 7 = ((d * 7 : ℤ) : ℚ) / ((8000000000 : ℕ) : ℚ) := by
    push_cast
    ring
  rw [h, Rat.floor_intCast_div_natCast]
  rfl

theorem colorAt_some (i : Int) (h0 : 0 ≤ i) (h1 : i < 7) : ∃ c, colorAt i = some c := by
  have hi : i = 0 ∨ i = 1 ∨ i = 2 ∨ i = 3 ∨ i = 4 ∨ i = 5 ∨ i = 6 := by omega
  rcases hi with h | h | h | h | h | h | h <;> subst h <;> exact ⟨_, rfl⟩

theorem tickStep_update (d : Int) (c : NRGBA) (hx : expired (Seconds d) = false)
    (hc : colorAt (colorIndexOf (Seconds d)) = some c) :
    tickStep d = Tick.update (percentageOf (Seconds d)) (barWidthOf (percentageOf (Seconds d))) c
      (formatInt (percentageOf (Seconds d)) ++ "%") := by
  simp only [tickStep, hx, hc, Bool.false_eq_true, if_false]

theorem tickStep_save (d : Int) (h0 : 0 ≤ d) (h1 : d ≤ maxDuration) :
    tickStep d = Tick.save ↔ 9 * Second ≤ d := by
  rw [← expired_iff d h0 h1]
  cases hx : expired (Seconds d) with
  | true => simp [tickStep, hx]
  | false =>
    simp only [tickStep, hx, Bool.false_eq_true, if_false, iff_false]
    cases colorAt (colorIndexOf (Seconds d)) <;> simp

/-- A tick below 9 seconds updates the bar, with a colour of the gradient. -/
theorem tickStep_of_lt (d : Int) (h0 : 0 ≤ d) (h9 : d < 9 * Second) :
    ∃ c, colorAt (colorIndexOf (Seconds d)) = some c ∧
      tickStep d = Tick.update (percentageOf (Seconds d)) (barWidthOf (percentageOf (Seconds d)))
        c (formatInt (percentageOf (Seconds d)) ++ "%") := by
  have hmax : d ≤ maxDuration := by
    unfold maxDuration
    unfold Second at h9
    omega
  have hx : expired (Seconds d) = false := by
    cases hx : expired (Seconds d) with
    | false => rfl
    | true =>
      have := (expired_iff d h0 hmax).1 hx
      omega
  have hi := colorIndexOf_spec d h0 h9
  have hk0 : 0 ≤ d * 7 / 8000000000 := Int.ediv_nonneg (by omega) (by decide)
  obtain ⟨c, hc⟩ := colorAt_some (colorIndexOf (Seconds d)) (by rw [hi]; omega) (by rw [hi]; omega)
  exact ⟨c, hc, tickStep_update d c hx hc⟩

/-- Within the threshold the tick shows a percentage between 0 and 100 and a bar
between 0 and 960 wide. -/
theorem tickStep_bounds_within_threshold (d : Int) (h0 : 0 ≤ d) (h1 : d ≤ depletionTime) :
    ∃ p w c l, tickStep d = Tick.update p w c l ∧ 0 ≤ p ∧ p ≤ 100 ∧ 0 ≤ w ∧ w ≤ 960 := by
  have hd : d ≤ 8000000000 := h1
  obtain ⟨c, _, ht⟩ := tickStep_of_lt d h0 (by unfold Second; omega)
  obtain ⟨hp1, _, _, hp2⟩ := percentageOf_spec d h0 (by unfold Second; omega)
  have hp0 : 0 ≤ percentageOf (Seconds d) := by omega
  refine ⟨_, _, c, _, ht, hp0, hp2, ?_, ?_⟩
  · unfold barWidthOf
    rw [wrapInt64_of_bounds _ (by omega) (by omega), Int.tdiv_eq_ediv (by omega) (by decide)]
    omega
  · unfold barWidthOf
    rw [wrapInt64_of_bounds _ (by omega) (by omega), Int.tdiv_eq_ediv (by omega) (by decide)]
    omega

theorem showWritingContent_frame (dir path : String) (returns : Bool) (s : Session) :
    (showWritingContent dir path returns s).fs = s.fs ∧
      (showWritingContent dir path returns s).monitors = s.monitors ∧
      (showWritingContent dir path returns s).barWidth = s.barWidth ∧
      (showWritingContent dir path returns s).fillColor = s.fillColor ∧
      (showWritingContent dir path returns s).label = s.label ∧
      (showWritingContent dir path returns s).text = s.text := by
  unfold showWritingContent
  cases ReadFile s.fs dir path <;> simp

/-! ## The claims on the tick step -/

set_option maxRecDepth 100000 in
/-- C3 (counterexample): at an elapsed time of exactly 8 seconds, the threshold,
the tick step does not take the save branch: it shows 0% and the last
colour. -/
theorem tickStep_at_threshold :
    tickStep depletionTime = Tick.update 0 0 ⟨255, 0, 0, 255⟩ "0%" ∧
      tickStep depletionTime ≠ Tick.save := by
  decide

/-- C3 (amended): for every elapsed time of at least 9 seconds, that is as
soon as the whole seconds of the elapsed time exceed the threshold of 8, the
tick step of a running `monitorKeystrokes` takes the save branch: it saves the
buffer, ends the monitoring loop, leaves the percentage, the width and the
colour as they were, and shows the text read-only when the write succeeded. -/
theorem monitorKeystrokes_saves (dir : String) (now : Int) (s : Session) (hm : s.monitors ≠ 0)
    (ht : 9 * Second ≤ Since now s.lastKeyStrokeTime) :
    tickStep (Since now s.lastKeyStrokeTime) = Tick.save ∧
      ∃ s1, monitorKeystrokes dir now s = some s1 ∧
        s1.fs = (saveWriting dir s.text s.fs).2 ∧ s1.monitors = s.monitors - 1 ∧
        s1.barWidth = s.barWidth ∧ s1.fillColor = s.fillColor ∧ s1.label = s.label ∧
        ((WriteFile s.fs (getNextFilename (ReadDir s.fs)) s.text).isSome = true →
          s1.screen = Screen.content s.text false) := by
  have hs0 : 0 ≤ Since now s.lastKeyStrokeTime := by
    unfold Second at ht
    omega
  have hsave := (tickStep_save _ hs0 (Since_le now s.lastKeyStrokeTime)).2 ht
  refine ⟨hsave, _, monitorKeystrokes_of_save dir now s hm hsave, ?_⟩
  obtain ⟨f1, f2, f3, f4, f5, _⟩ := showWritingContent_frame dir (saveWriting dir s.text s.fs).1
    false { s with fs := (saveWriting dir s.text s.fs).2, monitors := s.monitors - 1 }
  refine ⟨f1, f2, f3, f4, f5, ?_⟩
  intro hw
  rw [showWritingContent_some dir _ s.text false _ (ReadFile_saveWriting dir s.text s.fs hw)]

/-- C3 (witness): a session with one running monitor whose last keystroke is 9
seconds old. -/
theorem monitorKeystrokes_saves_witness :
    (OnChanged 1000 "abc" (initialSession ⟨[], true, true⟩)).monitors ≠ 0 ∧
      9 * Second ≤ Since 9000001000 (OnChanged 1000 "abc" (initialSession ⟨[], true, true⟩)).lastKeyStrokeTime ∧
      tickStep (Since 9000001000
        (OnChanged 1000 "abc" (initialSession ⟨[], true, true⟩)).lastKeyStrokeTime) = Tick.save :=
  ⟨by decide, by decide,
    (monitorKeystrokes_saves "writings" 9000001000
      (OnChanged 1000 "abc" (initialSession ⟨[], true, true⟩)) (by decide) (by decide)).1⟩

set_option maxRecDepth 100000 in
/-- C5 (counterexample): at an elapsed time of exactly 2.32 seconds the tick
shows 72%, while `100 − floor(t·100/threshold)` is 71: the `float64` product
`2.32 * 100` is rounded below 232.  Reading `t` as the `float64` the code holds
does not help: at 0.24 seconds that value lies below 0.24, the formula gives 98,
and the tick shows 97%. -/
theorem tickStep_percentage_rounding :
    tickStep 2320000000 = Tick.update 72 691 ⟨0, 0, 255, 255⟩ "72%" ∧
      specPercentage (elapsedSeconds 2320000000) = 71 ∧
      tickStep 240000000 = Tick.update 97 931 ⟨148, 0, 211, 255⟩ "97%" ∧
      specPercentage (Seconds 240000000).toRat = 98 := by
  refine ⟨by decide, ?_, by decide, ?_⟩
  · rw [specPercentage_eq]
    decide
  · have h : Seconds 240000000 = ⟨8646911284551352, 36028797018963968⟩ := by decide
    rw [h]
    unfold specPercentage threshold Float64.toRat
    have h2 : ((8646911284551352 : Int) : ℚ) / ((36028797018963968 : Nat) : ℚ) * 100 / 8 =
        ((864691128455135200 : Int) : ℚ) / ((288230376151711744 : Nat) : ℚ) := by
      norm_num
    rw [h2, Rat.floor_intCast_div_natCast]
    decide

/-- C5 (amended): for every elapsed time `t` with `0 ≤ t < threshold` the tick
step shows, in the bar and in the label, the percentage
`100 − floor(t·100/threshold)` whenever `t·100/threshold` is not a whole number
(the duration is not a multiple of 80 ms), and that value or one more when it
is; a later elapsed time within the threshold shows a percentage that is not
greater. -/
theorem tickStep_percentage (d1 d2 : Int) (h0 : 0 ≤ d1) (h12 : d1 ≤ d2) (h2 : d2 < depletionTime) :
    (∃ c, tickStep d1 = Tick.update (percentageOf (Seconds d1))
        (barWidthOf (percentageOf (Seconds d1))) c
        (formatInt (percentageOf (Seconds d1)) ++ "%")) ∧
      (∃ c, tickStep d2 = Tick.update (percentageOf (Seconds d2))
        (barWidthOf (percentageOf (Seconds d2))) c
        (formatInt (percentageOf (Seconds d2)) ++ "%")) ∧
      specPercentage (elapsedSeconds d1) ≤ percentageOf (Seconds d1) ∧
      percentageOf (Seconds d1) ≤ specPercentage (elapsedSeconds d1) + 1 ∧
      (d1 % 80000000 ≠ 0 → percentageOf (Seconds d1) = specPercentage (elapsedSeconds d1)) ∧
      percentageOf (Seconds d2) ≤ percentageOf (Seconds d1) := by
  have hd : d2 < 8000000000 := h2
  obtain ⟨c1, _, ht1⟩ := tickStep_of_lt d1 h0 (by unfold Second; omega)
  obtain ⟨c2, _, ht2⟩ := tickStep_of_lt d2 (by omega) (by unfold Second; omega)
  obtain ⟨a1, a2, a3, _⟩ := percentageOf_spec d1 h0 (by unfold Second; omega)
  obtain ⟨b1, b2, b3, _⟩ := percentageOf_spec d2 (by omega) (by unfold Second; omega)
  rw [specPercentage_eq]
  refine ⟨⟨c1, ht1⟩, ⟨c2, ht2⟩, a1, a2, a3, ?_⟩
  by_cases he : d1 = d2
  · subst he
    exact le_refl _
  · by_cases hr : d2 % 80000000 = 0
    · omega
    · have := b3 hr
      omega

/-- C5 (witness): elapsed times of 3.01 and 5 seconds. -/
theorem tickStep_percentage_witness :
    (0 : Int) ≤ 3010000000 ∧ (3010000000 : Int) ≤ 5000000000 ∧ (5000000000 : Int) < depletionTime ∧
      (3010000000 : Int) % 80000000 ≠ 0 ∧
      percentageOf (Seconds 3010000000) = specPercentage (elapsedSeconds 3010000000) ∧
      percentageOf (Seconds 5000000000) ≤ percentageOf (Seconds 3010000000) :=
  ⟨by decide, by decide, by decide, by decide,
    (tickStep_percentage 3010000000 5000000000 (by decide) (by decide) (by decide)).2.2.2.2.1
      (by decide),
    (tickStep_percentage 3010000000 5000000000 (by decide) (by decide) (by decide)).2.2.2.2.2⟩

/-- C6: for every elapsed time `t ≥ 0` on a tick that does not save, the colour
index is `floor((t/threshold)·7)` clamped to `[0,6]`, the lookup in the
7-entry gradient is in bounds, and the bar gets that gradient entry. -/
theorem tickStep_color (d : Int) (h0 : 0 ≤ d) (h1 : d ≤ maxDuration)
    (hns : tickStep d ≠ Tick.save) :
    colorIndexOf (Seconds d) = specColorIndex (elapsedSeconds d) ∧
      0 ≤ colorIndexOf (Seconds d) ∧ colorIndexOf (Seconds d) < lifeColors.length ∧
      ∃ c, lifeColors.get? (colorIndexOf (Seconds d)).toNat = some c ∧
        ∃ p w l, tickStep d = Tick.update p w c l := by
  have hlen : ((lifeColors.length : Nat) : Int) = 7 := by decide
  have h9 : d < 9 * Second := by
    by_contra hc
    exact hns ((tickStep_save d h0 h1).2 (by omega))
  have hi := colorIndexOf_spec d h0 h9
  have hk0 : 0 ≤ d * 7 / 8000000000 := Int.ediv_nonneg (by omega) (by decide)
  have hr0 : 0 ≤ colorIndexOf (Seconds d) := by rw [hi]; omega
  have hr1 : colorIndexOf (Seconds d) < 7 := by rw [hi]; omega
  obtain ⟨c, hc, ht⟩ := tickStep_of_lt d h0 h9
  refine ⟨?_, hr0, by rw [hlen]; exact hr1, c, ?_, _, _, _, ht⟩
  · rw [specColorIndex_eq, hi]
    omega
  · unfold colorAt at hc
    rw [if_pos hr0] at hc
    exact hc

set_option maxRecDepth 100000 in
/-- C6 (witness): an elapsed time of 8.5 seconds, on which the tick does not
save, has the colour index 6. -/
theorem tickStep_color_witness :
    (0 : Int) ≤ 8500000000 ∧ (8500000000 : Int) ≤ maxDuration ∧ tickStep 8500000000 ≠ Tick.save ∧
      colorIndexOf (Seconds 8500000000) = specColorIndex (elapsedSeconds 8500000000) ∧
      colorIndexOf (Seconds 8500000000) = 6 :=
  ⟨by decide, by decide, by decide,
    (tickStep_color 8500000000 (by decide) (by decide) (by decide)).1, by decide⟩

set_option maxRecDepth 100000 in
/-- C10 (the code at the failing input): at an elapsed time of 8.5 seconds the
tick does not save and shows the percentage -6 on a bar of width -57. -/
theorem tickStep_negative_percentage :
    tickStep 8500000000 = Tick.update (-6) (-57) ⟨255, 0, 0, 255⟩ "-6%" := by
  decide

/-! ## The claims on the session -/

theorem Since_self (now : Int) : Since now now = 0 := by
  unfold Since maxDuration minDuration
  simp

set_option maxRecDepth 100000 in
/-- C7: whatever the session held, the keystroke handler sets the last-keystroke
timestamp to the current time, so that the elapsed time is zero, the bar colour
to the first gradient entry, the bar width to 960 and the label to `100%`; a
tick at elapsed time zero computes 100%, the full width and the colour index
0, and leaves the state the handler produced as it is. -/
theorem OnChanged_resets (dir : String) (now : Int) (content : String) (s : Session) :
    (OnChanged now content s).lastKeyStrokeTime = now ∧
      Since now (OnChanged now content s).lastKeyStrokeTime = 0 ∧
      lifeColors.get? 0 = some (OnChanged now content s).fillColor ∧
      (OnChanged now content s).barWidth = 960 ∧
      (OnChanged now content s).label = "100%" ∧
      percentageOf (Seconds 0) = 100 ∧ colorIndexOf (Seconds 0) = 0 ∧
      tickStep 0 = Tick.update 100 960 (OnChanged now content s).fillColor "100%" ∧
      monitorKeystrokes dir now (OnChanged now content s) = some (OnChanged now content s) := by
  have ht : tickStep 0 = Tick.update 100 960 ⟨148, 0, 211, 255⟩ "100%" := by decide
  refine ⟨rfl, Since_self now, rfl, rfl, rfl, by decide, by decide, ht, ?_⟩
  unfold monitorKeystrokes
  split
  · rfl
  · have h0 : (OnChanged now content s).lastKeyStrokeTime = now := rfl
    rw [h0, Since_self, ht]
    rfl

set_option maxRecDepth 100000 in
/-- C8 (the code at the failing input): a keystroke, a visit to the list of
writings, "Back", and a second keystroke before the running monitor ticks
again leave two `monitorKeystrokes` goroutines running; when the text then
rests, each of them saves it, to `1.txt` and to `2.txt`. -/
theorem two_monitors_after_back :
    (run "writings" (initialSession ⟨[], true, true⟩) doubleMonitorStart).map
        (fun s => (s.timerStarted, s.monitors)) = some (true, 2) ∧
      (run "writings" (initialSession ⟨[], true, true⟩)
        (doubleMonitorStart ++ doubleMonitorTicks)).map (fun s => (s.monitors, s.fs.entries)) =
        some (0, [⟨"1.txt", false, "ab"⟩, ⟨"2.txt", false, "ab"⟩]) := by
  decide

/-- C9 (counterexample): after the text `abc` was typed, `resetSession` and the
"Back" button leave `abc` in the text buffer: it does not become empty. -/
theorem resetSession_keeps_text :
    (resetSession (OnChanged 1000 "abc" (initialSession ⟨[], true, true⟩))).text = "abc" ∧
      (resetSession (OnChanged 1000 "abc" (initialSession ⟨[], true, true⟩))).text ≠ "" ∧
      (backButton (OnChanged 1000 "abc" (initialSession ⟨[], true, true⟩))).text ≠ "" := by
  decide

/-- C9 (amended): for every session state, `resetSession`, as called by the
"Back" and "Write Again" buttons, sets the timer-running flag to false and
the last-keystroke timestamp to the zero time, and leaves the in-memory text
buffer as it is. -/
theorem resetSession_resets (s : Session) :
    (resetSession s).timerStarted = false ∧ (resetSession s).lastKeyStrokeTime = 0 ∧
      (resetSession s).text = s.text ∧
      (backButton s).timerStarted = false ∧ (backButton s).lastKeyStrokeTime = 0 ∧
      (backButton s).text = s.text := by
  refine ⟨rfl, rfl, rfl, ?_, ?_, ?_⟩ <;>
    (unfold backButton; split <;> rfl)

end Anky
